import Mathlib

/-!
Verification of the cross-conformal classification calibration core described by
the repository specification, together with a shallow embedding of the example
script `examples/classification/plot_crossconformal.py`.

The calibration core itself (quantile estimator, fold manager, conformity score
engine, prediction set builder, error taxonomy) is exercised by the example
script but its implementation is not part of the source tree; those components
are modelled from the specification, as indicated in the doc comment of each
definition.  The example script's own computations (the leftover `clf` loop
variable and the visualization mesh `X_test`) are translated directly from the
source.

Scores and probabilities are modelled as rationals; the quantile estimator
returns a value in `WithTop ℚ`, with `⊤` standing for the `+infinity` result of
the overflow case.
-/

/-- Modelled from the spec (§4.2): the two interchangeable scoring methods of
the Conformity Score Engine, selected by configuration. -/
inductive ScoringMethod
  | score
  | cumulated
deriving DecidableEq

/-- Modelled from the spec (§4.5): the `includeLastLabel` configuration of the
Prediction Set Builder.  `lastIncluded` is `true` (boundary class always
included), `lastExcluded` is `false` (strict threshold), `randomized` includes
the boundary class depending on the per-sample uniform draw. -/
inductive IncludeLastLabel
  | lastIncluded
  | lastExcluded
  | randomized
deriving DecidableEq

/-- Modelled from the spec (§7): the error taxonomy. -/
inductive MapieError
  | invalidConfiguration
  | invalidInput
  | unsupportedCombination
deriving DecidableEq

/-- Ascending sort of conformity scores. -/
def sortScores (scores : List ℚ) : List ℚ :=
  List.insertionSort (· ≤ ·) scores

/-- Modelled from the spec (§4.3 Quantile Estimator, implementation not under
`src/`): `quantile(scores, alpha)` computes `rank = ceil((n+1)(1-alpha))`
clamped to `[1, n]`, returns the rank-th smallest score (1-indexed), and
returns `+infinity` (here `⊤`) when the unclamped rank exceeds `n`. -/
def quantile (scores : List ℚ) (alpha : ℚ) : WithTop ℚ :=
  if (scores.length : ℤ) < ⌈((scores.length : ℚ) + 1) * (1 - alpha)⌉ then ⊤
  else
    ((sortScores scores).getD
      (max (⌈((scores.length : ℚ) + 1) * (1 - alpha)⌉.toNat) 1 - 1) 0 : ℚ)

/-- The naive (uncorrected) empirical sample quantile: rank
`ceil(n·(1-alpha))` clamped to `[1, n]`, no finite-sample correction and no
overflow to `+infinity`. -/
def naiveQuantile (scores : List ℚ) (alpha : ℚ) : ℚ :=
  (sortScores scores).getD
    (min scores.length (max (⌈(scores.length : ℚ) * (1 - alpha)⌉.toNat) 1) - 1) 0

/-- Modelled from the spec (§4.3): the batch form of the quantile estimator,
implemented as a single sort plus a vectorized rank lookup over the sorted
array, one entry per requested alpha. -/
def batchQuantile (scores : List ℚ) (alphas : List ℚ) : List (WithTop ℚ) :=
  let sorted := sortScores scores
  alphas.map fun alpha =>
    if (scores.length : ℤ) < ⌈((scores.length : ℚ) + 1) * (1 - alpha)⌉ then ⊤
    else
      (sorted.getD
        (max (⌈((scores.length : ℚ) + 1) * (1 - alpha)⌉.toNat) 1 - 1) 0 : ℚ)

/-- Modelled from the spec (§4.1, sklearn `KFold` semantics): the sizes of the
`K` folds of a dataset of size `n`; the first `n % K` folds receive one extra
element. -/
def foldSizes (n K : ℕ) : List ℕ :=
  (List.range K).map fun i => n / K + if i < n % K then 1 else 0

/-- Splits a list into consecutive blocks of the given sizes. -/
def splitSizes : List ℕ → List ℕ → List (List ℕ)
  | _, [] => []
  | l, s :: ss => l.take s :: splitSizes (l.drop s) ss

/-- Modelled from the spec (§4.1 Fold Manager, implementation not under
`src/`): `makeFolds(datasetSize, K, perm)` partitions the (shuffled)
permutation `perm` of the index set into `K` consecutive calibration blocks;
each fold pairs the complementary train indices with its calibration block. -/
def makeFolds (n K : ℕ) (perm : List ℕ) : List (List ℕ × List ℕ) :=
  (splitSizes perm (foldSizes n K)).map fun calib =>
    (perm.filter fun j => decide (j ∉ calib), calib)

/-- Modelled from the spec (§4.1, §5): a deterministic, seed-driven shuffled
assignment of the dataset indices; the random stream is represented by the
explicitly passed `seed`. -/
def shufflePerm (n seed : ℕ) : List ℕ :=
  (List.range n).rotate (seed % (n + 1))

/-- Modelled from the spec (§7): eager validation at `fit` entry.  The
configuration is checked (fold count, empty alpha list, alphas outside (0,1))
before any fold computation; an invalid configuration yields
`InvalidConfiguration` and no folds are produced. -/
def fitChecked (n K : ℕ) (alphas : List ℚ) (perm : List ℕ) :
    Except MapieError (List (List ℕ × List ℕ)) :=
  if K < 2 ∨ n < K then .error .invalidConfiguration
  else if alphas.isEmpty then .error .invalidConfiguration
  else if alphas.any (fun a => decide (a ≤ 0) || decide (1 ≤ a)) then
    .error .invalidConfiguration
  else .ok (makeFolds n K perm)

/-- Class indices keyed for a stable descending sort by predicted
probability: lexicographic on (negated probability, class index). -/
def classKeys (p : List ℚ) : List (Lex (ℚ × ℕ)) :=
  (List.range p.length).map fun i => toLex (-(p.getD i 0), i)

/-- The class keys sorted ascending, i.e. classes sorted by descending
predicted probability (ties broken by class index). -/
def sortedKeys (p : List ℚ) : List (Lex (ℚ × ℕ)) :=
  List.insertionSort (· ≤ ·) (classKeys p)

/-- Class indices in descending order of predicted probability. -/
def sortedClasses (p : List ℚ) : List ℕ :=
  (sortedKeys p).map fun k => (ofLex k).2

/-- The predicted probabilities in descending order. -/
def sortedProbs (p : List ℚ) : List ℚ :=
  (sortedClasses p).map fun i => p.getD i 0

/-- Running totals of a list of rationals starting from `acc`. -/
def cumSums : List ℚ → ℚ → List ℚ
  | [], _ => []
  | x :: xs, acc => (acc + x) :: cumSums xs (acc + x)

/-- Cumulative probability mass in descending-probability order. -/
def cums (p : List ℚ) : List ℚ :=
  cumSums (sortedProbs p) 0

/-- The rank of class `c` in the descending-probability order. -/
def rankOfClass (p : List ℚ) (c : ℕ) : ℕ :=
  (sortedClasses p).findIdx fun j => decide (j = c)

/-- The rank of the first class whose cumulative probability mass pushes past
the threshold `t` (the boundary class); equals the number of classes when no
class does. -/
def boundaryIdx (p : List ℚ) (t : WithTop ℚ) : ℕ :=
  (cums p).findIdx fun v : ℚ => decide (t < (v : WithTop ℚ))

/-- Modelled from the spec (§4.5): how many leading classes of the
descending-probability order belong to the cumulated-score prediction set:
the classes strictly within the threshold, plus the boundary class according
to `includeLastLabel`; at least the arg-max class is always kept (empty
prediction sets are disallowed). -/
def includedCount (p : List ℚ) (t : WithTop ℚ) (ill : IncludeLastLabel)
    (u : ℚ) : ℕ :=
  match ill with
  | .lastIncluded => boundaryIdx p t + 1
  | .lastExcluded => max (boundaryIdx p t) 1
  | .randomized =>
      if (((cums p).getD (boundaryIdx p t) 0
            - u * (sortedProbs p).getD (boundaryIdx p t) 0 : ℚ) : WithTop ℚ) ≤ t
      then boundaryIdx p t + 1
      else max (boundaryIdx p t) 1

/-- The first index of a maximal entry of `p` (the arg-max class). -/
def argmaxIdx (p : List ℚ) : ℕ :=
  p.findIdx fun x => decide (p.foldr max 0 ≤ x)

/-- Modelled from the spec (§4.5 Prediction Set Builder, implementation not
under `src/`): whether class `c` belongs to the prediction set for the
probability vector `p` at threshold `t`.  For the `score` method class `c` is
included iff `1 - p[c] ≤ t` (with the arg-max class always kept); for the
`cumulated_score` method the leading `includedCount` classes of the
descending-probability order are included.  `u` is the per-sample uniform
draw, consumed only by the `randomized` variant. -/
def buildMember : ScoringMethod → List ℚ → WithTop ℚ → IncludeLastLabel → ℚ → ℕ → Bool
  | .score, p, t, _, _, c =>
      decide (c < p.length) &&
        (decide (((1 - p.getD c 0 : ℚ) : WithTop ℚ) ≤ t) || decide (c = argmaxIdx p))
  | .cumulated, p, t, ill, u, c =>
      decide (c < p.length) && decide (rankOfClass p c < includedCount p t ill u)

/-- Modelled from the spec (§4.2): the deterministic conformity score of a
(probability vector, true label) pair.  `score`: `1 - p[y]`;
`cumulated_score`: cumulative sum of the descending-sorted probabilities up to
and including the true label's rank.  No randomized term appears here. -/
def conformityScore : ScoringMethod → List ℚ → ℕ → ℚ
  | .score, p, y => 1 - p.getD y 0
  | .cumulated, p, y => (cums p).getD (rankOfClass p y) 0

/-- Modelled from the spec (§4.2): the randomized variant of the cumulated
score, subtracting `u · p[y]` where `u` is the per-sample uniform draw. -/
def randomizedScore (p : List ℚ) (y : ℕ) (u : ℚ) : ℚ :=
  (cums p).getD (rankOfClass p y) 0 - u * p.getD y 0

/-- One step of a linear congruential generator modelling the seeded random
stream. -/
def lcg (s : ℕ) : ℕ :=
  (1664525 * s + 1013904223) % 4294967296

/-- Iterated LCG steps. -/
def lcgIter : ℕ → ℕ → ℕ
  | 0, s => s
  | k + 1, s => lcg (lcgIter k s)

/-- Modelled from the spec (§5): the per-sample uniform draw in `[0,1)`
derived from the caller-controlled seed; sample `i` consumes the `(i+1)`-th
state of the stream. -/
def uniformAt (seed i : ℕ) : ℚ :=
  (lcgIter (i + 1) seed : ℚ) / 4294967296

/-- Modelled from the spec (§4.1 orchestration, §4.2): the conformity scores
computed on the calibration data during `fit`.  The random stream (`seed`) is
threaded through the call but, per the spec, calibration scores are the
deterministic scores and never consume the randomized correction term. -/
def fitConformityScores (method : ScoringMethod) (calibProbs : List (List ℚ))
    (labels : List ℕ) (_seed : ℕ) : List ℚ :=
  (List.range calibProbs.length).map fun i =>
    conformityScore method (calibProbs.getD i []) (labels.getD i 0)

/-- Modelled from the spec (§4.5, §6 `predict`): the boolean membership
tensor, indexed `[test sample][class][alpha index]`.  Thresholds come from the
quantile estimator on the calibration scores; the per-sample uniform draw is
derived from the explicitly passed seed. -/
def memberTensor (method : ScoringMethod) (ill : IncludeLastLabel)
    (calibScores : List ℚ) (testProbs : List (List ℚ)) (seed : ℕ)
    (alphas : List ℚ) : List (List (List Bool)) :=
  (List.range testProbs.length).map fun i =>
    (List.range (testProbs.getD i []).length).map fun c =>
      alphas.map fun a =>
        buildMember method (testProbs.getD i []) (quantile calibScores a) ill
          (uniformAt seed i) c

/-- The base estimator passed around by the example script: either a fresh
unfitted `GaussianNB()` or one fitted on the train indices of a given fold of
a given method iteration. -/
inductive BaseEstimator
  | fresh
  | fitted (method : String) (foldIdx : ℕ) (trainIdx : List ℕ)
deriving DecidableEq

/-- The `methods` list of the script (line 104). -/
def scriptMethods : List String :=
  ["score", "cumulated_score"]

/-- The inner fold loop of the script (lines 108-117): for each enumerated
fold `(i, (train_index, calib_index))` the loop variable `clf` is rebound to a
`GaussianNB` fitted on that fold's train indices. -/
def runFolds (method : String) (splits : List (List ℕ × List ℕ))
    (clf : Option BaseEstimator) : Option BaseEstimator :=
  (List.range splits.length).foldl
    (fun _ i => some (.fitted method i ((splits.getD i ([], [])).1))) clf

/-- The state of the loop variable `clf` after the double loop of lines
106-120, given the folds produced by `kf.split(X_train)` in each method
iteration. -/
def scriptClfAfterLoops (splitsOf : String → List (List ℕ × List ℕ)) :
    Option BaseEstimator :=
  scriptMethods.foldl (fun acc m => runFolds m (splitsOf m) acc) none

/-- The estimator received by `MapieClassifier(estimator=clf, cv=kf,
method="score")` at line 284 of the script: the current value of the loop
variable `clf`. -/
def mapieClfEstimator (splitsOf : String → List (List ℕ × List ℕ)) :
    Option BaseEstimator :=
  scriptClfAfterLoops splitsOf

/-- A concrete stand-in for the per-method `kf.split` outputs, used to
instantiate theorems about the script loop. -/
def constSplits : String → List (List ℕ × List ℕ) :=
  fun _ => [([0], [1]), ([2], [3]), ([4], [5]), ([6], [7]), ([8], [9])]

/-- `np.arange(start, stop, step)` for a positive rational step:
`start + k * step` for `k < ⌈(stop - start) / step⌉`. -/
def arange (start stop step : ℚ) : List ℚ :=
  (List.range (⌈(stop - start) / step⌉.toNat)).map fun k : ℕ =>
    start + (k : ℚ) * step

/-- Lines 69-72 of the script: `xx, yy = np.meshgrid(np.arange(x_min, x_max,
step), np.arange(x_min, x_max, step))` followed by
`X_test = np.stack([xx.ravel(), yy.ravel()], axis=1)`.  Both meshgrid
arguments are built from `x_min` and `x_max`; the `ymn`/`ymx` parameters mirror
the declared constants `y_min`/`y_max`, which the construction never reads. -/
def buildXTest (xmn xmx _ymn _ymx step : ℚ) : List (ℚ × ℚ) :=
  ((arange xmn xmx step).map fun y =>
    (arange xmn xmx step).map fun x => (x, y)).flatten

theorem length_sortScores (s : List ℚ) : (sortScores s).length = s.length :=
  (List.perm_insertionSort _ s).length_eq

theorem sorted_sortScores (s : List ℚ) : (sortScores s).Sorted (· ≤ ·) :=
  List.sorted_insertionSort _ s

theorem sortScores_orderStat (s : List ℚ) (i : ℕ) (hi : i < s.length) :
    i + 1 ≤ (s.filter fun x => decide (x ≤ (sortScores s).getD i 0)).length ∧
    (s.filter fun x => decide (x < (sortScores s).getD i 0)).length ≤ i := by
  have hperm := List.perm_insertionSort (fun a b : ℚ => a ≤ b) s
  have hlen : (sortScores s).length = s.length := length_sortScores s
  have hsort := sorted_sortScores s
  have hit : i < (sortScores s).length := by rwa [hlen]
  set t := sortScores s with ht
  have hq : t.getD i 0 = t[i] := List.getD_eq_getElem t 0 hit
  have hmono : ∀ (j : ℕ) (hj : j < t.length), j ≤ i → t[j] ≤ t[i] := by
    intro j hj hji
    have := hsort.rel_get_of_le (a := ⟨j, hj⟩) (b := ⟨i, hit⟩) (by exact hji)
    simpa using this
  have hmono' : ∀ (j : ℕ) (hj : j < t.length), i ≤ j → t[i] ≤ t[j] := by
    intro j hj hij
    have := hsort.rel_get_of_le (a := ⟨i, hit⟩) (b := ⟨j, hj⟩) (by exact hij)
    simpa using this
  constructor
  · have hfl : (s.filter fun x => decide (x ≤ t[i])).length
        = (t.filter fun x => decide (x ≤ t[i])).length :=
      ((hperm.filter _).length_eq).symm
    rw [hq, hfl]
    have e1 : t.filter (fun x => decide (x ≤ t[i]))
        = (t.take (i + 1)).filter (fun x => decide (x ≤ t[i]))
          ++ (t.drop (i + 1)).filter (fun x => decide (x ≤ t[i])) := by
      rw [← List.filter_append, List.take_append_drop]
    have htake : (t.take (i + 1)).filter (fun x => decide (x ≤ t[i])) = t.take (i + 1) := by
      apply List.filter_eq_self.mpr
      intro a ha
      obtain ⟨j, hj, rfl⟩ := List.getElem_of_mem ha
      have hjlen : j < t.length := by
        have := hj
        simp [List.length_take] at this
        omega
      have hji : j ≤ i := by
        have := hj
        simp [List.length_take] at this
        omega
      have he : (t.take (i + 1))[j] = t[j] := List.getElem_take t
      rw [he]
      simpa using hmono j hjlen hji
    have hlen_take : (t.take (i + 1)).length = i + 1 := by
      simp [List.length_take]
      omega
    rw [e1, List.length_append, htake, hlen_take]
    omega
  · have hfl : (s.filter fun x => decide (x < t[i])).length
        = (t.filter fun x => decide (x < t[i])).length :=
      ((hperm.filter _).length_eq).symm
    rw [hq, hfl]
    have e1 : t.filter (fun x => decide (x < t[i]))
        = (t.take i).filter (fun x => decide (x < t[i]))
          ++ (t.drop i).filter (fun x => decide (x < t[i])) := by
      rw [← List.filter_append, List.take_append_drop]
    have hdrop : (t.drop i).filter (fun x => decide (x < t[i])) = [] := by
      apply List.filter_eq_nil_iff.mpr
      intro a ha
      obtain ⟨j, hj, rfl⟩ := List.getElem_of_mem ha
      have hjlen : i + j < t.length := by
        have := hj
        simp [List.length_drop] at this
        omega
      have he : (t.drop i)[j] = t[i + j] := List.getElem_drop ..
      rw [he]
      simpa using hmono' (i + j) hjlen (by omega)
    rw [e1, List.length_append, hdrop]
    have h2 : ((t.take i).filter fun x => decide (x < t[i])).length ≤ (t.take i).length :=
      List.length_filter_le _ _
    have hlen_take : (t.take i).length ≤ i := by
      simp [List.length_take]
    simp only [List.length_nil]
    omega

theorem quantile_antitone (s : List ℚ) {a b : ℚ} (hab : a ≤ b) :
    quantile s b ≤ quantile s a := by
  have hceil : ⌈((s.length : ℚ) + 1) * (1 - b)⌉ ≤ ⌈((s.length : ℚ) + 1) * (1 - a)⌉ := by
    apply Int.ceil_le_ceil
    apply mul_le_mul_of_nonneg_left (by linarith) (by positivity)
  simp only [quantile]
  by_cases hb : (s.length : ℤ) < ⌈((s.length : ℚ) + 1) * (1 - b)⌉
  · rw [if_pos hb, if_pos (by omega)]
  · rw [if_neg hb]
    by_cases ha : (s.length : ℤ) < ⌈((s.length : ℚ) + 1) * (1 - a)⌉
    · rw [if_pos ha]
      exact le_top
    · rw [if_neg ha]
      rcases Nat.eq_zero_or_pos s.length with h0 | h0
      · have hnil : sortScores s = [] := by
          have : s = [] := List.length_eq_zero.mp h0
          simp [this, sortScores, List.insertionSort]
        simp [hnil]
      · have hlen : (sortScores s).length = s.length := length_sortScores s
        have hbn : ⌈((s.length : ℚ) + 1) * (1 - b)⌉.toNat ≤ s.length := by omega
        have han : ⌈((s.length : ℚ) + 1) * (1 - a)⌉.toNat ≤ s.length := by omega
        have htn : ⌈((s.length : ℚ) + 1) * (1 - b)⌉.toNat
            ≤ ⌈((s.length : ℚ) + 1) * (1 - a)⌉.toNat := by omega
        have hib : max (⌈((s.length : ℚ) + 1) * (1 - b)⌉.toNat) 1 - 1 < (sortScores s).length := by
          omega
        have hia : max (⌈((s.length : ℚ) + 1) * (1 - a)⌉.toNat) 1 - 1 < (sortScores s).length := by
          omega
        rw [List.getD_eq_getElem _ 0 hib, List.getD_eq_getElem _ 0 hia]
        apply WithTop.coe_le_coe.mpr
        have := (sorted_sortScores s).rel_get_of_le
          (a := ⟨max (⌈((s.length : ℚ) + 1) * (1 - b)⌉.toNat) 1 - 1, hib⟩)
          (b := ⟨max (⌈((s.length : ℚ) + 1) * (1 - a)⌉.toNat) 1 - 1, hia⟩)
          (by simp [Fin.mk_le_mk]; omega)
        simpa using this

/-- C1: for every finite score list of length `n ≥ 1` and every `alpha` in
`(0,1)`, the quantile estimator returns the `r`-th smallest score (1-indexed)
where `r = ⌈(n+1)(1-alpha)⌉` clamped to `[1,n]` — witnessed by the order
statistic counting characterization — and returns `+infinity` (`⊤`) whenever
`⌈(n+1)(1-alpha)⌉` exceeds `n`; whenever the naive (uncorrected) empirical
sample quantile differs from the returned value, the estimator does not
return it. -/
theorem quantile_finite_sample_corrected (scores : List ℚ) (alpha : ℚ)
    (hn : 1 ≤ scores.length) (h0 : 0 < alpha) (h1 : alpha < 1) :
    (⌈((scores.length : ℚ) + 1) * (1 - alpha)⌉ ≤ (scores.length : ℤ) →
      ∃ q : ℚ, quantile scores alpha = (q : WithTop ℚ) ∧
        ⌈((scores.length : ℚ) + 1) * (1 - alpha)⌉
          ≤ ((scores.filter fun x => decide (x ≤ q)).length : ℤ) ∧
        ((scores.filter fun x => decide (x < q)).length : ℤ)
          < ⌈((scores.length : ℚ) + 1) * (1 - alpha)⌉) ∧
    ((scores.length : ℤ) < ⌈((scores.length : ℚ) + 1) * (1 - alpha)⌉ →
      quantile scores alpha = ⊤) ∧
    ((naiveQuantile scores alpha : WithTop ℚ) ≠ quantile scores alpha →
      quantile scores alpha ≠ (naiveQuantile scores alpha : WithTop ℚ)) := by
  have hRpos : 0 < ⌈((scores.length : ℚ) + 1) * (1 - alpha)⌉ :=
    Int.ceil_pos.mpr (mul_pos (by positivity) (by linarith))
  refine ⟨?_, ?_, ?_⟩
  · intro hRn
    have hR1 : 1 ≤ ⌈((scores.length : ℚ) + 1) * (1 - alpha)⌉.toNat := by omega
    have hRn' : ⌈((scores.length : ℚ) + 1) * (1 - alpha)⌉.toNat ≤ scores.length := by omega
    have hi : ⌈((scores.length : ℚ) + 1) * (1 - alpha)⌉.toNat - 1 < scores.length := by omega
    have hos := sortScores_orderStat scores
      (⌈((scores.length : ℚ) + 1) * (1 - alpha)⌉.toNat - 1) hi
    refine ⟨(sortScores scores).getD
      (⌈((scores.length : ℚ) + 1) * (1 - alpha)⌉.toNat - 1) 0, ?_, ?_, ?_⟩
    · simp only [quantile]
      rw [if_neg (by omega)]
      congr 2
      omega
    · have := hos.1
      omega
    · have := hos.2
      omega
  · intro h
    simp only [quantile]
    rw [if_pos h]
  · intro h
    exact h.symm

theorem quantile_finite_sample_corrected_witness :
    1 ≤ ([(0:ℚ), 1]).length ∧ (0:ℚ) < 1/2 ∧ (1/2:ℚ) < 1 ∧
    ((⌈((([(0:ℚ), 1]).length : ℚ) + 1) * (1 - 1/2)⌉ ≤ (([(0:ℚ), 1]).length : ℤ) →
      ∃ q : ℚ, quantile [(0:ℚ), 1] (1/2) = (q : WithTop ℚ) ∧
        ⌈((([(0:ℚ), 1]).length : ℚ) + 1) * (1 - 1/2)⌉
          ≤ ((([(0:ℚ), 1]).filter fun x => decide (x ≤ q)).length : ℤ) ∧
        ((([(0:ℚ), 1]).filter fun x => decide (x < q)).length : ℤ)
          < ⌈((([(0:ℚ), 1]).length : ℚ) + 1) * (1 - 1/2)⌉) ∧
    ((([(0:ℚ), 1]).length : ℤ) < ⌈((([(0:ℚ), 1]).length : ℚ) + 1) * (1 - 1/2)⌉ →
      quantile [(0:ℚ), 1] (1/2) = ⊤) ∧
    ((naiveQuantile [(0:ℚ), 1] (1/2) : WithTop ℚ) ≠ quantile [(0:ℚ), 1] (1/2) →
      quantile [(0:ℚ), 1] (1/2) ≠ (naiveQuantile [(0:ℚ), 1] (1/2) : WithTop ℚ))) :=
  ⟨by decide, by norm_num, by norm_num,
    quantile_finite_sample_corrected [0, 1] (1/2) (by decide) (by norm_num) (by norm_num)⟩

/-- C7: for every monotonically increasing sequence of alphas, the batch form
of the quantile estimator (one sort of the scores plus a vectorized rank
lookup) returns exactly the sequence obtained by applying the scalar
quantile function to each alpha independently (one re-sort per alpha). -/
theorem batchQuantile_eq_map (scores : List ℚ) (alphas : List ℚ)
    (hmono : List.Pairwise (· ≤ ·) alphas) :
    batchQuantile scores alphas = alphas.map (quantile scores) := rfl

theorem batchQuantile_eq_map_witness :
    List.Pairwise (· ≤ ·) [(0:ℚ), 1] ∧
    batchQuantile [(1:ℚ)] [(0:ℚ), 1] = [(0:ℚ), 1].map (quantile [(1:ℚ)]) :=
  ⟨by decide, batchQuantile_eq_map [(1:ℚ)] [(0:ℚ), 1] (by decide)⟩

/-- C8: `fit` fails with `InvalidConfiguration` if and only if the
configuration is invalid — fold count `K < 2` or `K > n`, an empty alpha
list, or an alpha outside `(0,1)`; validation happens before any fold is
produced. -/
theorem fitChecked_invalidConfiguration_iff (n K : ℕ) (alphas : List ℚ)
    (perm : List ℕ) :
    fitChecked n K alphas perm = Except.error MapieError.invalidConfiguration ↔
      ¬(2 ≤ K ∧ K ≤ n ∧ alphas ≠ [] ∧ ∀ a ∈ alphas, 0 < a ∧ a < 1) := by
  simp only [fitChecked]
  split_ifs with h1 h2 h3
  · refine iff_of_true rfl ?_
    rintro ⟨hK, hKn, -, -⟩
    rcases h1 with h | h <;> omega
  · refine iff_of_true rfl ?_
    rintro ⟨-, -, hne, -⟩
    exact hne (List.isEmpty_iff.mp h2)
  · refine iff_of_true rfl ?_
    rintro ⟨-, -, -, hall⟩
    rw [List.any_eq_true] at h3
    obtain ⟨a, ha, hcond⟩ := h3
    have h := hall a ha
    simp only [Bool.or_eq_true, decide_eq_true_eq] at hcond
    rcases hcond with hc | hc <;> linarith [h.1, h.2]
  · refine iff_of_false (by simp) ?_
    rw [not_not]
    refine ⟨by omega, by omega, ?_, ?_⟩
    · intro he
      exact h2 (by simp [he])
    · intro a ha
      have : ¬(decide (a ≤ 0) || decide (1 ≤ a)) = true := by
        intro hco
        exact h3 (List.any_eq_true.mpr ⟨a, ha, hco⟩)
      simp only [Bool.or_eq_true, decide_eq_true_eq, not_or] at this
      constructor <;> [linarith [this.1]; linarith [this.2]]

theorem sum_range_const_add_ite (K m c : ℕ) :
    ((List.range K).map (fun i => c + if i < m then 1 else 0)).sum = K * c + min m K := by
  induction K with
  | zero => simp
  | succ k ih =>
      rw [List.range_succ, List.map_append, List.sum_append, ih]
      simp only [List.map_cons, List.map_nil, List.sum_cons, List.sum_nil]
      rw [Nat.succ_mul]
      split_ifs <;> omega

theorem sum_foldSizes (n K : ℕ) (hK : 0 < K) : (foldSizes n K).sum = n := by
  rw [foldSizes, sum_range_const_add_ite]
  have hmod : n % K < K := Nat.mod_lt n hK
  have := Nat.div_add_mod n K
  omega

theorem splitSizes_length (l : List ℕ) (ss : List ℕ) :
    (splitSizes l ss).length = ss.length := by
  induction ss generalizing l with
  | nil => rfl
  | cons s ss ih => simp [splitSizes, ih]

theorem flatten_splitSizes (l : List ℕ) (ss : List ℕ) :
    (splitSizes l ss).flatten = l.take ss.sum := by
  induction ss generalizing l with
  | nil => simp [splitSizes]
  | cons s ss ih =>
      simp only [splitSizes, List.flatten_cons, ih, List.sum_cons]
      rw [List.take_add]

/-- C2: for every dataset size `n` and fold count `K` with `2 ≤ K ≤ n`, the
fold manager produces exactly `K` folds, and every dataset index `j < n`
appears in exactly one calibration set (indices `≥ n` in none): the
calibration sets are pairwise disjoint and their union is `{0..n-1}`. -/
theorem makeFolds_partition (n K : ℕ) (perm : List ℕ)
    (hK2 : 2 ≤ K) (hKn : K ≤ n) (hperm : perm.Perm (List.range n)) :
    (makeFolds n K perm).length = K ∧
    ∀ j, ((makeFolds n K perm).map Prod.snd).flatten.count j
      = if j < n then 1 else 0 := by
  have hplen : perm.length = n := by simpa using hperm.length_eq
  have hmap : (makeFolds n K perm).map Prod.snd = splitSizes perm (foldSizes n K) := by
    simp [makeFolds, List.map_map, Function.comp_def]
  constructor
  · rw [makeFolds, List.length_map, splitSizes_length, foldSizes, List.length_map,
      List.length_range]
  · intro j
    have hflat : ((makeFolds n K perm).map Prod.snd).flatten = perm := by
      rw [hmap, flatten_splitSizes, sum_foldSizes n K (by omega), ← hplen,
        List.take_length]
    rw [hflat, hperm.count_eq, List.count_eq_of_nodup (List.nodup_range n)]
    by_cases hj : j < n
    · rw [if_pos (List.mem_range.mpr hj), if_pos hj]
    · rw [if_neg (fun hm => hj (List.mem_range.mp hm)), if_neg hj]

theorem makeFolds_partition_witness :
    2 ≤ 2 ∧ 2 ≤ 5 ∧ (List.range 5).Perm (List.range 5) ∧
    (makeFolds 5 2 (List.range 5)).length = 2 ∧
    ((makeFolds 5 2 (List.range 5)).map Prod.snd).flatten.count 3
      = if 3 < 5 then 1 else 0 :=
  ⟨by decide, by decide, List.Perm.refl _,
    (makeFolds_partition 5 2 (List.range 5) (by decide) (by decide)
      (List.Perm.refl _)).1,
    (makeFolds_partition 5 2 (List.range 5) (by decide) (by decide)
      (List.Perm.refl _)).2 3⟩

theorem findIdx_le_findIdx {α} (l : List α) {p q : α → Bool}
    (h : ∀ x, q x = true → p x = true) : l.findIdx p ≤ l.findIdx q := by
  induction l with
  | nil => exact le_refl _
  | cons a l ih =>
      rw [List.findIdx_cons, List.findIdx_cons]
      cases hq : q a
      · cases hp : p a
        · simpa using Nat.succ_le_succ ih
        · simp
      · rw [h a hq]
        simp

theorem boundaryIdx_mono (p : List ℚ) {t1 t2 : WithTop ℚ} (h : t1 ≤ t2) :
    boundaryIdx p t1 ≤ boundaryIdx p t2 := by
  apply findIdx_le_findIdx
  intro x hx
  simp only [decide_eq_true_eq] at hx ⊢
  exact lt_of_le_of_lt h hx

theorem includedCount_pos (p : List ℚ) (t : WithTop ℚ) (ill : IncludeLastLabel)
    (u : ℚ) : 1 ≤ includedCount p t ill u := by
  cases ill <;> simp only [includedCount] <;> first
    | omega
    | (split_ifs <;> omega)

theorem includedCount_mono (p : List ℚ) (ill : IncludeLastLabel) (u : ℚ)
    {t1 t2 : WithTop ℚ} (h : t1 ≤ t2) :
    includedCount p t1 ill u ≤ includedCount p t2 ill u := by
  have hb := boundaryIdx_mono p h
  cases ill with
  | lastIncluded => simp only [includedCount]; omega
  | lastExcluded => simp only [includedCount]; omega
  | randomized =>
      simp only [includedCount]
      rcases eq_or_lt_of_le hb with he | hlt
      · rw [← he]
        split_ifs with hc1 hc2
        · omega
        · exact absurd (le_trans hc1 h) hc2
        · omega
        · omega
      · split_ifs <;> omega

theorem buildMember_mono (method : ScoringMethod) (p : List ℚ)
    (ill : IncludeLastLabel) (u : ℚ) (c : ℕ) {t1 t2 : WithTop ℚ}
    (h12 : t1 ≤ t2) (hm : buildMember method p t1 ill u c = true) :
    buildMember method p t2 ill u c = true := by
  cases method with
  | score =>
      simp only [buildMember, Bool.and_eq_true, Bool.or_eq_true,
        decide_eq_true_eq] at hm ⊢
      refine ⟨hm.1, ?_⟩
      rcases hm.2 with h | h
      · exact Or.inl (le_trans h h12)
      · exact Or.inr h
  | cumulated =>
      simp only [buildMember, Bool.and_eq_true, decide_eq_true_eq] at hm ⊢
      exact ⟨hm.1, lt_of_lt_of_le hm.2 (includedCount_mono p ill u h12)⟩

theorem getD_map_range {β} (L : ℕ) (F : ℕ → β) (i : ℕ) (d : β) (h : i < L) :
    ((List.range L).map F).getD i d = F i := by
  rw [List.getD_eq_getElem _ d (by simpa using h)]
  simp

theorem getD_map_list {α β} (l : List α) (F : α → β) (i : ℕ) (d : β) (dflt : α)
    (h : i < l.length) : (l.map F).getD i d = F (l.getD i dflt) := by
  rw [List.getD_eq_getElem _ d (by simpa using h), List.getD_eq_getElem _ dflt h]
  simp

/-- C3: for fixed inputs and any two miscoverage levels with
`alpha1 ≥ alpha2` in the requested alpha sequence, membership in the
`alpha1`-slice of the membership tensor implies membership in the
`alpha2`-slice, for every test sample and every class: demanding higher
coverage never shrinks a prediction set. -/
theorem memberTensor_monotone (method : ScoringMethod) (ill : IncludeLastLabel)
    (calib : List ℚ) (tps : List (List ℚ)) (seed : ℕ) (alphas : List ℚ)
    (i c ia1 ia2 : ℕ) (h1 : ia1 < alphas.length) (h2 : ia2 < alphas.length)
    (hle : alphas.getD ia2 0 ≤ alphas.getD ia1 0)
    (hmem : (((memberTensor method ill calib tps seed alphas).getD i []).getD c
      []).getD ia1 false = true) :
    (((memberTensor method ill calib tps seed alphas).getD i []).getD c
      []).getD ia2 false = true := by
  by_cases hi : i < tps.length
  case neg =>
    exfalso
    have hrow : (memberTensor method ill calib tps seed alphas).getD i [] = [] := by
      apply List.getD_eq_default
      simpa [memberTensor] using Nat.le_of_not_lt hi
    rw [hrow] at hmem
    simp at hmem
  case pos =>
    have hrow : (memberTensor method ill calib tps seed alphas).getD i []
        = (List.range (tps.getD i []).length).map fun c =>
            alphas.map fun a =>
              buildMember method (tps.getD i []) (quantile calib a) ill
                (uniformAt seed i) c := by
      simp only [memberTensor]
      exact getD_map_range tps.length _ i [] hi
    rw [hrow] at hmem ⊢
    by_cases hc : c < (tps.getD i []).length
    case neg =>
      exfalso
      have hcell : ((List.range (tps.getD i []).length).map fun c =>
          alphas.map fun a =>
            buildMember method (tps.getD i []) (quantile calib a) ill
              (uniformAt seed i) c).getD c [] = [] := by
        apply List.getD_eq_default
        simpa using Nat.le_of_not_lt hc
      rw [hcell] at hmem
      simp at hmem
    case pos =>
      rw [getD_map_range _ _ c [] hc] at hmem ⊢
      rw [getD_map_list alphas _ ia1 false 0 h1] at hmem
      rw [getD_map_list alphas _ ia2 false 0 h2]
      exact buildMember_mono method (tps.getD i []) ill (uniformAt seed i) c
        (quantile_antitone calib hle) hmem

theorem memberTensor_monotone_witness :
    0 < ([(3/4:ℚ), 1/4]).length ∧ 1 < ([(3/4:ℚ), 1/4]).length ∧
    ([(3/4:ℚ), 1/4]).getD 1 0 ≤ ([(3/4:ℚ), 1/4]).getD 0 0 ∧
    (((memberTensor .score .lastIncluded [0, 0] [[1]] 0 [3/4, 1/4]).getD 0
      []).getD 0 []).getD 0 false = true ∧
    (((memberTensor .score .lastIncluded [0, 0] [[1]] 0 [3/4, 1/4]).getD 0
      []).getD 0 []).getD 1 false = true := by
  have hq : quantile [(0:ℚ), 0] (3/4) = ((0:ℚ) : WithTop ℚ) := by
    have hC : ⌈(3/4 : ℚ)⌉ = 1 := by
      rw [Int.ceil_eq_iff]
      norm_num
    norm_num [quantile, hC, sortScores, List.insertionSort, List.orderedInsert]
  have hmem0 : (((memberTensor .score .lastIncluded [0, 0] [[1]] 0
      [3/4, 1/4]).getD 0 []).getD 0 []).getD 0 false = true := by
    norm_num [memberTensor, List.range_succ, hq, buildMember, argmaxIdx,
      WithTop.coe_le_coe]
    refine Or.inr ?_
    rw [List.findIdx_cons, decide_eq_true (le_refl (1:ℚ))]
    rfl
  refine ⟨by decide, by decide, by norm_num, hmem0, ?_⟩
  exact memberTensor_monotone .score .lastIncluded [0, 0] [[1]] 0 [3/4, 1/4]
    0 0 0 1 (by decide) (by decide) (by norm_num) hmem0

theorem le_foldr_max (p : List ℚ) (x : ℚ) (hx : x ∈ p) : x ≤ p.foldr max 0 := by
  induction p with
  | nil => simp at hx
  | cons a l ih =>
      rcases List.mem_cons.mp hx with rfl | hx'
      · exact le_max_left _ _
      · exact (ih hx').trans (le_max_right _ _)

theorem foldr_max_attained (p : List ℚ) (hne : p ≠ []) (hpos : ∀ x ∈ p, 0 ≤ x) :
    ∃ x ∈ p, p.foldr max 0 ≤ x := by
  induction p with
  | nil => exact absurd rfl hne
  | cons a l ih =>
      by_cases hl : l = []
      · subst hl
        refine ⟨a, List.mem_cons_self a [], ?_⟩
        simp [max_eq_left (hpos a (List.mem_cons_self a []))]
      · obtain ⟨x, hx, hmx⟩ := ih hl fun y hy => hpos y (List.mem_cons_of_mem a hy)
        rcases le_total (l.foldr max 0) a with h | h
        · exact ⟨a, List.mem_cons_self a l, by simpa using max_le (le_refl a) h⟩
        · exact ⟨x, List.mem_cons_of_mem a hx,
            by simpa using max_le (h.trans hmx) hmx⟩

theorem length_sortedClasses (p : List ℚ) : (sortedClasses p).length = p.length := by
  rw [sortedClasses, List.length_map, sortedKeys,
    (List.perm_insertionSort (· ≤ ·) (classKeys p)).length_eq, classKeys,
    List.length_map, List.length_range]

theorem mem_sortedClasses_lt (p : List ℚ) {c : ℕ} (hc : c ∈ sortedClasses p) :
    c < p.length := by
  simp only [sortedClasses, List.mem_map] at hc
  obtain ⟨k, hk, rfl⟩ := hc
  have hk' : k ∈ classKeys p :=
    ((List.perm_insertionSort (· ≤ ·) (classKeys p)).mem_iff).mp hk
  simp only [classKeys, List.mem_map, List.mem_range] at hk'
  obtain ⟨i, hi, rfl⟩ := hk'
  simpa using hi

theorem sortedKeys_sorted (p : List ℚ) : (sortedKeys p).Sorted (· ≤ ·) :=
  List.sorted_insertionSort _ _

/-- C4: for every probability vector, threshold, `includeLastLabel` mode,
method, and uniform draw, the produced prediction set is non-empty: a class
of maximal predicted probability (the arg-max class) is always included in
the boolean membership vector, even when no class satisfies the threshold
inclusion rule. -/
theorem buildSets_nonempty (method : ScoringMethod) (p : List ℚ)
    (t : WithTop ℚ) (ill : IncludeLastLabel) (u : ℚ)
    (hne : p ≠ []) (hpos : ∀ x ∈ p, 0 ≤ x) :
    ∃ c, buildMember method p t ill u c = true ∧ c < p.length ∧
      ∀ j, j < p.length → p.getD j 0 ≤ p.getD c 0 := by
  cases method with
  | score =>
      have hex : ∃ x ∈ p, (fun x => decide (p.foldr max 0 ≤ x)) x = true := by
        obtain ⟨x, hx, hmx⟩ := foldr_max_attained p hne hpos
        exact ⟨x, hx, decide_eq_true hmx⟩
      have hlt : argmaxIdx p < p.length :=
        List.findIdx_lt_length_of_exists hex
      refine ⟨argmaxIdx p, ?_, hlt, ?_⟩
      · simp only [buildMember, Bool.and_eq_true, Bool.or_eq_true,
          decide_eq_true_eq]
        exact ⟨hlt, Or.inr trivial⟩
      · intro j hj
        have hsat : decide (p.foldr max 0 ≤ p[argmaxIdx p]) = true :=
          List.findIdx_getElem (w := hlt)
        have hsat' : p.foldr max 0 ≤ p[argmaxIdx p] := of_decide_eq_true hsat
        rw [List.getD_eq_getElem p 0 hj, List.getD_eq_getElem p 0 hlt]
        exact (le_foldr_max p _ (List.getElem_mem hj)).trans hsat'
  | cumulated =>
      have hlen0 : 0 < (sortedClasses p).length := by
        rw [length_sortedClasses]
        exact List.length_pos.mpr hne
      cases hsc : sortedClasses p with
      | nil => rw [hsc] at hlen0; simp at hlen0
      | cons c0 rest =>
          have hc0mem : c0 ∈ sortedClasses p := by
            rw [hsc]; exact List.mem_cons_self _ _
          have hc0lt : c0 < p.length := mem_sortedClasses_lt p hc0mem
          have hrank : rankOfClass p c0 = 0 := by
            rw [rankOfClass, hsc, List.findIdx_cons, decide_eq_true rfl]
            rfl
          refine ⟨c0, ?_, hc0lt, ?_⟩
          · simp only [buildMember, Bool.and_eq_true, decide_eq_true_eq]
            refine ⟨hc0lt, ?_⟩
            rw [hrank]
            exact includedCount_pos p t ill u
          · intro j hj
            cases hks : sortedKeys p with
            | nil =>
                exfalso
                have : sortedClasses p = [] := by rw [sortedClasses, hks]; rfl
                rw [this] at hsc
                exact List.noConfusion hsc
            | cons k0 krest =>
                have hk0 : (ofLex k0).2 = c0 := by
                  have : sortedClasses p = (ofLex k0).2 :: krest.map
                      (fun k => (ofLex k).2) := by
                    rw [sortedClasses, hks, List.map_cons]
                  rw [hsc] at this
                  exact ((List.cons.injEq _ _ _ _ ▸ this).1).symm
                have hk0mem : k0 ∈ classKeys p := by
                  have : k0 ∈ sortedKeys p := by
                    rw [hks]; exact List.mem_cons_self _ _
                  exact ((List.perm_insertionSort (· ≤ ·) (classKeys p)).mem_iff).mp
                    this
                have hk0fst : (ofLex k0).1 = -(p.getD c0 0) := by
                  simp only [classKeys, List.mem_map, List.mem_range] at hk0mem
                  obtain ⟨i, hi, hik⟩ := hk0mem
                  have h2 : (ofLex k0).2 = i := by rw [← hik]; rfl
                  have h1 : (ofLex k0).1 = -(p.getD i 0) := by rw [← hik]; rfl
                  rw [h1, ← h2, hk0]
                have hkjmem : toLex (-(p.getD j 0), j) ∈ sortedKeys p := by
                  apply ((List.perm_insertionSort (· ≤ ·) (classKeys p)).mem_iff).mpr
                  simp only [classKeys, List.mem_map, List.mem_range]
                  exact ⟨j, hj, rfl⟩
                have hle : k0 ≤ toLex (-(p.getD j 0), j) := by
                  rw [hks] at hkjmem
                  rcases List.mem_cons.mp hkjmem with he | hm
                  · rw [← he]
                  · have hsorted := sortedKeys_sorted p
                    rw [hks] at hsorted
                    exact List.rel_of_sorted_cons hsorted _ hm
                have : (ofLex k0).1 ≤ -(p.getD j 0) := by
                  have hiff := Prod.Lex.le_iff (ofLex k0) (-(p.getD j 0), j)
                  rw [show toLex (ofLex k0) = k0 from rfl] at hiff
                  rcases hiff.mp hle with hlt | ⟨heq, -⟩
                  · exact le_of_lt hlt
                  · exact le_of_eq heq
                rw [hk0fst] at this
                exact le_of_neg_le_neg this

theorem buildSets_nonempty_witness :
    ([(1:ℚ), 0] ≠ [] ∧ ∀ x ∈ [(1:ℚ), 0], 0 ≤ x) ∧
    ∃ c, buildMember .cumulated [(1:ℚ), 0] ⊤ .lastExcluded 0 c = true ∧
      c < ([(1:ℚ), 0]).length ∧
      ∀ j, j < ([(1:ℚ), 0]).length →
        ([(1:ℚ), 0]).getD j 0 ≤ ([(1:ℚ), 0]).getD c 0 :=
  ⟨⟨by decide, by decide⟩,
    buildSets_nonempty .cumulated [(1:ℚ), 0] ⊤ .lastExcluded 0 (by decide)
      (by decide)⟩

theorem buildMember_score_eq (p : List ℚ) (t : WithTop ℚ)
    (ill : IncludeLastLabel) (u : ℚ) (c : ℕ) :
    buildMember .score p t ill u c
      = (decide (c < p.length) &&
          (decide (((1 - p.getD c 0 : ℚ) : WithTop ℚ) ≤ t)
            || decide (c = argmaxIdx p))) := rfl

theorem buildMember_cumulated_eq (p : List ℚ) (t : WithTop ℚ)
    (ill : IncludeLastLabel) (u : ℚ) (c : ℕ) :
    buildMember .cumulated p t ill u c
      = (decide (c < p.length)
          && decide (rankOfClass p c < includedCount p t ill u)) := rfl

theorem includedCount_lastIncluded (p : List ℚ) (t : WithTop ℚ) (u : ℚ) :
    includedCount p t .lastIncluded u = boundaryIdx p t + 1 := rfl

theorem includedCount_lastExcluded (p : List ℚ) (t : WithTop ℚ) (u : ℚ) :
    includedCount p t .lastExcluded u = max (boundaryIdx p t) 1 := rfl

/-- C5: prediction is deterministic: with `includeLastLabel` true or false the
membership tensor does not depend on the random seed at all (two runs with any
two seeds coincide); with `randomized` under a fixed seed two runs coincide;
and fold generation is deterministic given a fixed seed.  The random stream is
an explicit caller-supplied seed, never implicit global state. -/
theorem predict_deterministic (method : ScoringMethod) (calib : List ℚ)
    (tps : List (List ℚ)) (alphas : List ℚ) (s1 s2 n K : ℕ) :
    memberTensor method .lastIncluded calib tps s1 alphas
      = memberTensor method .lastIncluded calib tps s2 alphas ∧
    memberTensor method .lastExcluded calib tps s1 alphas
      = memberTensor method .lastExcluded calib tps s2 alphas ∧
    (s1 = s2 → memberTensor method .randomized calib tps s1 alphas
      = memberTensor method .randomized calib tps s2 alphas) ∧
    (s1 = s2 → makeFolds n K (shufflePerm n s1) = makeFolds n K (shufflePerm n s2)) := by
  refine ⟨?_, ?_, fun h => by rw [h], fun h => by rw [h]⟩ <;>
  · simp only [memberTensor]
    apply List.map_congr_left
    intro i _
    apply List.map_congr_left
    intro c _
    apply List.map_congr_left
    intro a _
    cases method with
    | score => rw [buildMember_score_eq, buildMember_score_eq]
    | cumulated =>
        rw [buildMember_cumulated_eq, buildMember_cumulated_eq]
        first
          | rw [includedCount_lastIncluded, includedCount_lastIncluded]
          | rw [includedCount_lastExcluded, includedCount_lastExcluded]

theorem predict_deterministic_witness :
    memberTensor .score .lastIncluded [] [[1]] 1 []
      = memberTensor .score .lastIncluded [] [[1]] 2 [] ∧
    memberTensor .score .lastExcluded [] [[1]] 1 []
      = memberTensor .score .lastExcluded [] [[1]] 2 [] ∧
    memberTensor .score .randomized [] [[1]] 3 []
      = memberTensor .score .randomized [] [[1]] 3 [] ∧
    makeFolds 4 2 (shufflePerm 4 7) = makeFolds 4 2 (shufflePerm 4 7) :=
  ⟨(predict_deterministic .score [] [[1]] [] 1 2 4 2).1,
    (predict_deterministic .score [] [[1]] [] 1 2 4 2).2.1,
    (predict_deterministic .score [] [[1]] [] 3 3 4 2).2.2.1 rfl,
    (predict_deterministic .score [] [[1]] [] 7 7 4 2).2.2.2 rfl⟩

/-- C6: for the cumulated-score method, the conformity scores computed on
calibration data during `fit` never include the randomized term: they are
independent of the random stream and equal the deterministic cumulated score
(the randomized score at `U = 0`); the `U · p(x)[y]` correction enters only
the prediction-set builder under `include_last_label = "randomized"`, where it
demonstrably changes the produced set. -/
theorem fit_scores_never_randomized (method : ScoringMethod)
    (calibProbs : List (List ℚ)) (labels : List ℕ) (s1 s2 : ℕ) :
    fitConformityScores method calibProbs labels s1
      = fitConformityScores method calibProbs labels s2 ∧
    (∀ p y, conformityScore .cumulated p y = randomizedScore p y 0) ∧
    (∀ p y u, randomizedScore p y u
      = conformityScore .cumulated p y - u * p.getD y 0) ∧
    buildMember .cumulated [2/5, 2/5] ((1/2 : ℚ) : WithTop ℚ) .randomized 0 1
      ≠ buildMember .cumulated [2/5, 2/5] ((1/2 : ℚ) : WithTop ℚ) .randomized 1 1 := by
  refine ⟨rfl, ?_, ?_, ?_⟩
  · intro p y
    simp [conformityScore, randomizedScore]
  · intro p y u
    simp [conformityScore, randomizedScore]
  · have hk : (toLex (-(2/5:ℚ), (0:ℕ))) ≤ toLex (-(2/5:ℚ), (1:ℕ)) := by
      rw [Prod.Lex.le_iff]
      exact Or.inr ⟨rfl, by norm_num⟩
    have hck : classKeys [(2/5:ℚ), 2/5]
        = [toLex (-(2/5:ℚ), 0), toLex (-(2/5:ℚ), 1)] := rfl
    have hsk : sortedKeys [(2/5:ℚ), 2/5]
        = [toLex (-(2/5:ℚ), 0), toLex (-(2/5:ℚ), 1)] := by
      rw [sortedKeys, hck]
      simp only [List.insertionSort, List.orderedInsert]
      rw [if_pos hk]
    have hsc : sortedClasses [(2/5:ℚ), 2/5] = [0, 1] := by
      rw [sortedClasses, hsk]
      rfl
    have hsp : sortedProbs [(2/5:ℚ), 2/5] = [2/5, 2/5] := by
      rw [sortedProbs, hsc]
      rfl
    have hcums : cums [(2/5:ℚ), 2/5] = [2/5, 4/5] := by
      rw [cums, hsp]
      norm_num [cumSums]
    have hrank : rankOfClass [(2/5:ℚ), 2/5] 1 = 1 := by
      rw [rankOfClass, hsc]
      rfl
    have d1 : decide (((1/2 : ℚ) : WithTop ℚ) < ((2/5:ℚ) : WithTop ℚ)) = false :=
      decide_eq_false (by rw [WithTop.coe_lt_coe]; norm_num)
    have d2 : decide (((1/2 : ℚ) : WithTop ℚ) < ((4/5:ℚ) : WithTop ℚ)) = true :=
      decide_eq_true (WithTop.coe_lt_coe.mpr (by norm_num))
    have hbnd : boundaryIdx [(2/5:ℚ), 2/5] ((1/2 : ℚ) : WithTop ℚ) = 1 := by
      rw [boundaryIdx, hcums]
      simp only [List.findIdx_cons, d1, d2, Bool.cond_false, Bool.cond_true]
    have hg1 : ([(2/5:ℚ), 4/5]).getD 1 0 = 4/5 := rfl
    have hg2 : ([(2/5:ℚ), 2/5]).getD 1 0 = 2/5 := rfl
    have hcnt0 : includedCount [(2/5:ℚ), 2/5] ((1/2 : ℚ) : WithTop ℚ)
        .randomized 0 = 1 := by
      simp only [includedCount]
      rw [hbnd, hcums, hsp, hg1, hg2, if_neg]
      · rfl
      · intro hcon
        rw [WithTop.coe_le_coe] at hcon
        norm_num at hcon
    have hcnt1 : includedCount [(2/5:ℚ), 2/5] ((1/2 : ℚ) : WithTop ℚ)
        .randomized 1 = 2 := by
      simp only [includedCount]
      rw [hbnd, hcums, hsp, hg1, hg2, if_pos]
      rw [WithTop.coe_le_coe]
      norm_num
    intro hcon
    rw [buildMember_cumulated_eq, buildMember_cumulated_eq, hrank, hcnt0,
      hcnt1] at hcon
    simp at hcon

theorem list_len5 {α} (l : List α) (h : l.length = 5) :
    ∃ a b c d e, l = [a, b, c, d, e] := by
  rcases l with _ | ⟨a, l⟩
  · simp at h
  rcases l with _ | ⟨b, l⟩
  · simp at h
  rcases l with _ | ⟨c, l⟩
  · simp at h
  rcases l with _ | ⟨d, l⟩
  · simp at h
  rcases l with _ | ⟨e, l⟩
  · simp at h
  have hnil : l = [] := by
    simp only [List.length_cons] at h
    exact List.length_eq_zero.mp (by omega)
  exact ⟨a, b, c, d, e, by rw [hnil]⟩

/-- C9: in the cross-validation section of the script (line 284), the
`MapieClassifier` constructed with `cv=kf` receives as its estimator the
leftover loop variable `clf`: the `GaussianNB` fitted on the train indices of
the final fold (index 4) of the last method iteration (`"cumulated_score"`)
of the earlier loop — not a fresh unfitted classifier. -/
theorem leftover_clf_estimator (splitsOf : String → List (List ℕ × List ℕ))
    (h5 : (splitsOf "cumulated_score").length = 5) :
    mapieClfEstimator splitsOf
      = some (BaseEstimator.fitted "cumulated_score" 4
          ((splitsOf "cumulated_score").getD 4 ([], [])).1) ∧
    mapieClfEstimator splitsOf ≠ some BaseEstimator.fresh := by
  obtain ⟨a, b, c, d, e, hsp⟩ := list_len5 _ h5
  have h1 : mapieClfEstimator splitsOf
      = some (BaseEstimator.fitted "cumulated_score" 4
          ((splitsOf "cumulated_score").getD 4 ([], [])).1) := by
    rw [mapieClfEstimator, scriptClfAfterLoops, scriptMethods]
    simp only [List.foldl_cons, List.foldl_nil]
    rw [hsp]
    simp [runFolds, List.range_succ]
  exact ⟨h1, by rw [h1]; simp⟩

theorem leftover_clf_estimator_witness :
    (constSplits "cumulated_score").length = 5 ∧
    mapieClfEstimator constSplits
      = some (BaseEstimator.fitted "cumulated_score" 4
          ((constSplits "cumulated_score").getD 4 ([], [])).1) ∧
    mapieClfEstimator constSplits ≠ some BaseEstimator.fresh :=
  ⟨rfl, (leftover_clf_estimator constSplits rfl).1,
    (leftover_clf_estimator constSplits rfl).2⟩

/-- C10: the script builds the visualization mesh `X_test` from
`np.arange(x_min, x_max, step)` for both coordinates, so with the script's
constants (`x_min = -5`, `x_max = 7`, `step = 0.1`) both the first and second
coordinate of every mesh point lie in `[-5, 7)`; the declared constants
`y_min` and `y_max` never influence the mesh. -/
theorem xtest_mesh_bounds :
    (∀ ymn ymx ymn2 ymx2 : ℚ,
      buildXTest (-5) 7 ymn ymx (1/10) = buildXTest (-5) 7 ymn2 ymx2 (1/10)) ∧
    (buildXTest (-5) 7 (-5) 7 (1/10)).all
      (fun pt => decide (-5 ≤ pt.1) && decide (pt.1 < 7)
        && decide (-5 ≤ pt.2) && decide (pt.2 < 7)) = true := by
  have harange : ∀ x ∈ arange (-5 : ℚ) 7 (1/10), -5 ≤ x ∧ x < 7 := by
    intro x hx
    rw [arange] at hx
    simp only [List.mem_map, List.mem_range] at hx
    obtain ⟨k, hk, rfl⟩ := hx
    have hceil : ⌈((7:ℚ) - (-5)) / (1/10)⌉ = 120 := by
      rw [Int.ceil_eq_iff]
      constructor <;> norm_num
    rw [hceil] at hk
    have h120 : (120 : ℤ).toNat = 120 := rfl
    rw [h120] at hk
    have hk119 : k ≤ 119 := by omega
    have hk' : (k : ℚ) ≤ 119 := by exact_mod_cast hk119
    have hpos : (0:ℚ) ≤ (k : ℚ) * (1/10) :=
      mul_nonneg (by positivity) (by norm_num)
    constructor
    · linarith
    · linarith
  constructor
  · intro _ _ _ _
    rfl
  · rw [List.all_eq_true]
    intro pt hpt
    simp only [buildXTest, List.mem_flatten, List.mem_map] at hpt
    obtain ⟨row, ⟨y, hy, hrow⟩, hptrow⟩ := hpt
    rw [← hrow] at hptrow
    simp only [List.mem_map] at hptrow
    obtain ⟨x, hx, hpt'⟩ := hptrow
    rw [← hpt']
    simp only [Bool.and_eq_true, decide_eq_true_eq]
    exact ⟨⟨⟨(harange x hx).1, (harange x hx).2⟩, (harange y hy).1⟩,
      (harange y hy).2⟩
